import Mathlib

/-!
Shallow embedding of the model registry (`src/ml/model_registry.py`) and the
ensemble predictor (`src/ml/ensemble_predictor.py`) of the Hampilk/trebujton
repository, together with theorems settling the specification claims about
them.

Conventions of the embedding:
* A registry's in-memory ledger `self.registry['models']` is a `List Entry`
  in insertion order; Python's in-place dict mutation becomes functional
  update of the list element.
* Python dicts used as input records (where a key may be absent) become
  structures of `Option` fields; `none` means the key is absent.  A present
  but falsy value (`None` / `""`) is represented by `some ""`.
* Timestamps (`datetime.now().isoformat()`) and generated ids (`uuid4()`)
  are passed in as explicit `String` parameters.
* Metric maps become association lists `List (String × ℚ)`; numeric scores
  and blend weights are rationals.
* Python exceptions become `Except String`; raising leaves the caller's
  ledger unchanged, which the embedding renders by returning no new list.
-/

namespace Trebujton

/-- A stored registry entry, with exactly the fields `add_model` writes
(plus `updated_at` set by `update_model_status` and `promoted_at` set by
`_promote_best_candidate`). -/
structure Entry where
  id : String
  version : String
  algorithm : String
  metrics : List (String × ℚ)
  created_at : String
  status : String
  file_path : String
  model_type : String
  training_session_id : Option String := none
  description : String := ""
  tags : List String := []
  updated_at : Option String := none
  promoted_at : Option String := none
deriving DecidableEq, Repr

/-- Input record for `add_model`: a Python dict whose keys may be absent. -/
structure ModelData where
  id : Option String := none
  version : Option String := none
  algorithm : Option String := none
  metrics : Option (List (String × ℚ)) := none
  status : Option String := none
  file_path : Option String := none
  model_type : Option String := none
  training_session_id : Option String := none
  description : Option String := none
  tags : Option (List String) := none
deriving DecidableEq, Repr

/-- `d.get(k, 0)` on a metrics dict. -/
def metricsGet (ms : List (String × ℚ)) (k : String) : ℚ :=
  ((ms.find? (fun p => p.1 == k)).map (fun p => p.2)).getD 0

/-- `x['metrics'].get('accuracy', 0)` — the primary score used for ranking. -/
def accOf (e : Entry) : ℚ := metricsGet e.metrics "accuracy"

/-- The `required_fields` list of `add_model`. -/
def requiredFields : List String :=
  ["id", "version", "algorithm", "metrics", "status", "file_path"]

/-- `field in model_data` for each required field name. -/
def hasField (d : ModelData) : String → Bool
  | "id" => d.id.isSome
  | "version" => d.version.isSome
  | "algorithm" => d.algorithm.isSome
  | "metrics" => d.metrics.isSome
  | "status" => d.status.isSome
  | "file_path" => d.file_path.isSome
  | _ => false

/-- The first required field missing from the input, if any (the loop in
`add_model` raises on the first missing field). -/
def missingField (d : ModelData) : Option String :=
  requiredFields.find? (fun f => !(hasField d f))

/-- The `model_entry` dict built by `add_model` (before the deactivation
side effect).  `now` is `datetime.now().isoformat()`, `freshId` is
`str(uuid4())`. -/
def mkEntry (now freshId : String) (d : ModelData) : Entry :=
  { id := if d.id.getD "" = "" then freshId else d.id.getD ""
    version := d.version.getD "v1.0.0"
    algorithm := d.algorithm.getD ""
    metrics := d.metrics.getD []
    created_at := now
    status := d.status.getD "candidate"
    file_path := d.file_path.getD ""
    model_type := d.model_type.getD "unknown"
    training_session_id := d.training_session_id
    description := d.description.getD ""
    tags := d.tags.getD [] }

/-- `_deactivate_other_models(model_type)`: iterates over the whole ledger
(the just-appended/just-updated entry included) and archives every entry of
the given type whose status is `active`.  The `status != 'candidate'`
conjunct of the source is kept even though it is implied by the previous
one. -/
def deactivateOtherModels (ty : String) (ms : List Entry) : List Entry :=
  ms.map fun m =>
    if m.model_type == ty && m.status == "active" && m.status != "candidate"
    then { m with status := "archived" } else m

/-- `add_model(model_data)`: validate, build the entry, append, then run the
deactivation side effect when the new entry is active.  Returns the final
ledger (the stored entry is its last element, reflecting that Python
returns the same mutated dict object it appended). -/
def addModel (now freshId : String) (d : ModelData) (ms : List Entry) :
    Except String (List Entry) :=
  match missingField d with
  | some f => .error ("Missing required field: " ++ f)
  | none =>
    let e := mkEntry now freshId d
    let ms1 := ms ++ [e]
    .ok (if e.status == "active" then deactivateOtherModels e.model_type ms1 else ms1)

/-- `get_models_by_status(status)`. -/
def getModelsByStatus (status : String) (ms : List Entry) : List Entry :=
  ms.filter (fun m => m.status == status)

/-- `get_models_by_type(model_type)`. -/
def getModelsByType (ty : String) (ms : List Entry) : List Entry :=
  ms.filter (fun m => m.model_type == ty)

/-- `get_model_by_id(model_id)`: first entry with the given id. -/
def getModelById (mid : String) (ms : List Entry) : Option Entry :=
  ms.find? (fun m => m.id == mid)

/-- Functional update of the first entry satisfying `p` (Python mutates the
dict object found by a linear scan). -/
def updateFirst (p : Entry → Bool) (f : Entry → Entry) : List Entry → List Entry
  | [] => []
  | x :: xs => if p x then f x :: xs else x :: updateFirst p f xs

/-- Python's `max(l, key)`: the first element attaining the maximal key
(replacement happens only on strictly greater). -/
def maxByAcc (best : Entry) : List Entry → Entry
  | [] => best
  | x :: xs => if accOf best < accOf x then maxByAcc x xs else maxByAcc best xs

/-- `_promote_best_candidate(model_type)`: among candidates of the type
(in ledger order) set the first one attaining the maximal accuracy to
`active`, stamping `promoted_at`; no-op when there is no candidate. -/
def promoteBestCandidate (now ty : String) (ms : List Entry) : List Entry :=
  match (getModelsByType ty ms).filter (fun c => c.status == "candidate") with
  | [] => ms
  | c :: cs =>
    let best := maxByAcc c cs
    updateFirst (fun m => m == best)
      (fun m => { m with status := "active", promoted_at := some now }) ms

/-- The `valid_statuses` list of `update_model_status`. -/
def validStatuses : List String := ["active", "candidate", "archived"]

/-- `update_model_status(model_id, new_status)`.  Validates the status,
finds the entry, rewrites its status and `updated_at`, then runs the
transition side effects: to `active` — deactivate the type (the target
included); away from `active` — promote the best candidate of the type. -/
def updateModelStatus (now mid newStatus : String) (ms : List Entry) :
    Except String (List Entry) :=
  if !(validStatuses.contains newStatus) then
    .error ("Invalid status: " ++ newStatus)
  else
    match getModelById mid ms with
    | none => .error ("Model not found: " ++ mid)
    | some model =>
      let oldStatus := model.status
      let ty := model.model_type
      let ms1 := updateFirst (fun m => m.id == mid)
        (fun m => { m with status := newStatus, updated_at := some now }) ms
      .ok (if newStatus == "active" then deactivateOtherModels ty ms1
        else if oldStatus == "active" && newStatus != "active" then
          promoteBestCandidate now ty ms1
        else ms1)

/-- `import_registry(path, merge)`, abstracted over the already-parsed
`models` list of the import file: `merge` appends the imported entries whose
id is not already present; otherwise the ledger is replaced wholesale. -/
def importRegistry (imported : List Entry) (merge : Bool) (ms : List Entry) :
    List Entry :=
  if merge then
    ms ++ imported.filter (fun m => !(ms.any (fun e => e.id == m.id)))
  else imported

/-- The `active` entries of a given type, in ledger order. -/
def activesOf (ty : String) (ms : List Entry) : List Entry :=
  ms.filter (fun m => m.model_type == ty && m.status == "active")

/-- Number of `active` entries of a given type — the quantity the
single-active invariant bounds. -/
def countActive (ty : String) (ms : List Entry) : Nat :=
  (activesOf ty ms).length

/-- The ≤1-active-per-type registry invariant. -/
def ActiveInvariant (ms : List Entry) : Prop :=
  ∀ ty : String, countActive ty ms ≤ 1

/-! ### `cleanup_old_models` -/

/-- The model types in first-appearance order — the key order of the
`models_by_type` dict built by `cleanup_old_models`. -/
def firstSeenTypes (ms : List Entry) : List String :=
  ms.foldl (fun acc m => if acc.contains m.model_type then acc else acc ++ [m.model_type]) []

/-- Insertion step of a stable descending sort by `created_at`
(`models.sort(key=lambda x: x['created_at'], reverse=True)`). -/
def insertDescCreated (e : Entry) : List Entry → List Entry
  | [] => [e]
  | x :: xs =>
    if x.created_at ≤ e.created_at then e :: x :: xs else x :: insertDescCreated e xs

/-- Stable sort, most recent `created_at` first. -/
def sortByCreatedDesc (l : List Entry) : List Entry :=
  l.foldr insertDescCreated []

/-- The per-type removal list of `cleanup_old_models`: from the group
sorted most-recent-first, keep every `active`/`candidate` entry plus the
first `keep` archived ones, and list the rest (in sorted order, as the
removal loop visits them). -/
def cleanupGroupRemovals (keep : Nat) (group : List Entry) : List Entry :=
  let sortedG := sortByCreatedDesc group
  let toKeep :=
    sortedG.filter (fun m => m.status == "active" || m.status == "candidate")
      ++ (sortedG.filter (fun m => m.status == "archived")).take keep
  sortedG.filter (fun m => !(toKeep.contains m))

/-- `cleanup_old_models(keep_per_type)`: remove each listed model from the
ledger (first structural occurrence, like `list.remove`); returns the new
ledger and the removal count. -/
def cleanupOldModels (keep : Nat) (ms : List Entry) : List Entry × Nat :=
  let removals :=
    ((firstSeenTypes ms).map (fun ty => cleanupGroupRemovals keep (getModelsByType ty ms))).flatten
  (removals.foldl (fun cur m => cur.erase m) ms, removals.length)

/-! ## Ensemble predictor (`src/ml/ensemble_predictor.py`) -/

/-- Python's `max(l, key=lambda x: x['created_at'])`: first element with the
maximal creation timestamp (ISO strings compare lexicographically, as in
Python). -/
def maxByCreated (best : Entry) : List Entry → Entry
  | [] => best
  | x :: xs =>
    if best.created_at < x.created_at then maxByCreated x xs else maxByCreated best xs

/-- Insertion step of a stable descending sort by accuracy: the new element
goes in front of the first already-placed element with accuracy ≤ its own
(elements placed earlier came later in the original list, so this preserves
the original order of equal keys, like Python's stable `sorted`). -/
def insertDescAcc (e : Entry) : List Entry → List Entry
  | [] => [e]
  | x :: xs => if accOf x ≤ accOf e then e :: x :: xs else x :: insertDescAcc e xs

/-- `sorted(l, key=lambda x: x['metrics'].get('accuracy', 0), reverse=True)`:
stable sort, descending by accuracy. -/
def sortByAccDesc (l : List Entry) : List Entry :=
  l.foldr insertDescAcc []

/-- The `active_models` list of `_load_models` after the optional
`model_type` filter. -/
def activesSel (mt : Option String) (ms : List Entry) : List Entry :=
  match mt with
  | none => getModelsByStatus "active" ms
  | some t => (getModelsByStatus "active" ms).filter (fun m => m.model_type == t)

/-- The `candidate_models` list of `_load_models` after the optional
`model_type` filter. -/
def candidatesSel (mt : Option String) (ms : List Entry) : List Entry :=
  match mt with
  | none => getModelsByStatus "candidate" ms
  | some t => (getModelsByStatus "candidate" ms).filter (fun m => m.model_type == t)

/-- The challenger list of `_load_models`: candidates sorted descending by
accuracy, truncated to the top 2. -/
def challengersSel (mt : Option String) (ms : List Entry) : List Entry :=
  (sortByAccDesc (candidatesSel mt ms)).take 2

/-- `_load_models`, up to artifact loading: the sequence of
`(entry, weight)` pairs passed to `_load_single_model`, in call order —
the champion (most recent active, weight 0.7) when an active entry exists,
then up to two challengers, each carrying `0.3 / len(challengers)`. -/
def selectEnsemble (mt : Option String) (ms : List Entry) : List (Entry × ℚ) :=
  let champs : List (Entry × ℚ) :=
    match activesSel mt ms with
    | [] => []
    | a :: as => [(maxByCreated a as, (7 : ℚ) / 10)]
  let challengers := challengersSel mt ms
  let cw : ℚ := if challengers.isEmpty then 0 else (3 : ℚ) / 10 / challengers.length
  champs ++ challengers.map (fun c => (c, cw))

/-! ### Prediction blender (`_weighted_probability_ensemble`)

`probabilities` is a dict `model_id → probability vector` in insertion
order; `self.model_weights` a dict `model_id → weight`.  Both become
association lists. -/

/-- `self.model_weights.get(model_id, 0)`. -/
def lookupWeight (ws : List (String × ℚ)) (mid : String) : ℚ :=
  ((ws.find? (fun p => p.1 == mid)).map (fun p => p.2)).getD 0

/-- The `total_weight` accumulated by `_weighted_probability_ensemble`:
sum of the weights of the members that contributed a vector. -/
def totalContribWeight (ws : List (String × ℚ)) (ps : List (String × List ℚ)) : ℚ :=
  (ps.map (fun pr => lookupWeight ws pr.1)).sum

/-- `len(all_classes)`: `all_classes` is the sorted union of
`range(len(p))` over the vectors, i.e. `range` of the maximal length. -/
def maxLenProb (ps : List (String × List ℚ)) : Nat :=
  ps.foldl (fun n p => max n p.2.length) 0

/-- numpy's in-place `acc += p * w` on 1-d arrays: element-wise when the
lengths agree, broadcast when `p` has length 1, and a `ValueError`
("could not be broadcast") otherwise. -/
def broadcastAddMul (accv p : List ℚ) (w : ℚ) : Except String (List ℚ) :=
  if p.length = accv.length then
    .ok (List.zipWith (fun a b => a + b * w) accv p)
  else if p.length = 1 then
    .ok (accv.map (fun a => a + p.headD 0 * w))
  else
    .error "operands could not be broadcast together"

/-- The accumulation loop of `_weighted_probability_ensemble`: fold the
weighted vectors into `weighted_probs` while summing `total_weight`;
a numpy broadcast failure aborts the call. -/
def blendFold (ws : List (String × ℚ)) (accv : List ℚ) (tw : ℚ) :
    List (String × List ℚ) → Except String (List ℚ × ℚ)
  | [] => .ok (accv, tw)
  | (mid, p) :: rest =>
    match broadcastAddMul accv p (lookupWeight ws mid) with
    | .error e => .error e
    | .ok accv2 => blendFold ws accv2 (tw + lookupWeight ws mid) rest

/-- The normalized `weighted_probs` vector of
`_weighted_probability_ensemble`: weighted sum of the vectors, divided by
`total_weight` only when it is positive. -/
def blendedVector (ws : List (String × ℚ)) (ps : List (String × List ℚ)) :
    Except String (List ℚ) :=
  match blendFold ws (List.replicate (maxLenProb ps) 0) 0 ps with
  | .error e => .error e
  | .ok (v, tw) => .ok (if 0 < tw then v.map (fun a => a / tw) else v)

/-- `np.argmax` over a nonempty list: index of the first maximal element
(replacement only on strictly greater). -/
def argmaxAux (bi : Nat) (bv : ℚ) (i : Nat) : List ℚ → Nat
  | [] => bi
  | x :: xs => if bv < x then argmaxAux i x (i + 1) xs else argmaxAux bi bv (i + 1) xs

/-- `_weighted_probability_ensemble(probabilities)`: returns the predicted
class (`all_classes[np.argmax(weighted_probs)]`, which is the argmax index
itself since `all_classes = range(n)`) and the confidence
(`np.max(weighted_probs)`).  numpy raises on an empty `weighted_probs`
(argmax of an empty sequence). -/
def weightedProbabilityEnsemble (ws : List (String × ℚ))
    (ps : List (String × List ℚ)) : Except String (Nat × ℚ) :=
  match blendedVector ws ps with
  | .error e => .error e
  | .ok [] => .error "attempt to get argmax of an empty sequence"
  | .ok (x :: xs) => .ok (argmaxAux 0 x 1 xs, xs.foldl max x)

/-! ### Batch façade (`predict_batch`) -/

/-- One slot of a `predict_batch` result: either the successful
`predict_single` payload tagged with its `match_index`, or the error record
`{'match_index': i, 'error': msg, 'timestamp': ts}`. -/
inductive BatchSlot (ρ : Type) where
  | ok (matchIndex : Nat) (result : ρ)
  | err (matchIndex : Nat) (error : String) (timestamp : String)
deriving DecidableEq, Repr

/-- `predict_batch(matches_data)`, abstracted over the outcome of
`predict_single` on each item (`f`) and the error-record timestamp: every
item is attempted, a per-item failure becomes an error slot at the same
position, and no exception escapes the loop. -/
def predictBatch {α ρ : Type} (f : α → Except String ρ) (ts : String)
    (items : List α) : List (BatchSlot ρ) :=
  (items.enum).map fun p =>
    match f p.2 with
    | .ok r => .ok p.1 r
    | .error e => .err p.1 e ts

/-! ## Concrete data used by the evaluation theorems and witnesses -/

/-- A plain candidate entry used as a base for concrete registries. -/
def baseE : Entry :=
  { id := "m", version := "v1", algorithm := "rf",
    metrics := [("accuracy", 1 / 2)], created_at := "2024-01-01T00:00:00",
    status := "candidate", file_path := "p", model_type := "T" }

/-- Input dict for an `active` entry of type `T` (all required fields
present). -/
def dActW : ModelData :=
  { id := some "m1", version := some "v1", algorithm := some "rf",
    metrics := some [("accuracy", 1 / 2)], status := some "active",
    file_path := some "p", model_type := some "T" }

/-- A pre-existing active entry of type `T`. -/
def bActW : Entry := { baseE with id := "b", status := "active" }

/-- Two active entries of the same type with distinct ids, as found in
an imported registry file. -/
def aW1 : Entry := { baseE with id := "a1", status := "active" }

/-- Second active entry of the same type for the import scenario. -/
def aW2 : Entry := { baseE with id := "a2", status := "active" }

/-- The sole active entry of type `T`, about to be demoted. -/
def act0W : Entry := { baseE with id := "x", status := "active" }

/-- Older candidate, accuracy 0.8. -/
def cOldW : Entry :=
  { baseE with
    id := "cOld"
    status := "candidate"
    created_at := "2024-01-01T00:00:00"
    metrics := [("accuracy", 4 / 5)] }

/-- More recent candidate with the same accuracy 0.8. -/
def cNewW : Entry :=
  { baseE with
    id := "cNew"
    status := "candidate"
    created_at := "2024-06-01T00:00:00"
    metrics := [("accuracy", 4 / 5)] }

/-- Scenario entry: active, accuracy 0.85, type `full_time`. -/
def sActW : Entry :=
  { baseE with
    id := "act"
    status := "active"
    model_type := "full_time"
    created_at := "2024-02-01T00:00:00"
    metrics := [("accuracy", 17 / 20)] }

/-- Scenario entry: candidate, accuracy 0.89. -/
def s89W : Entry :=
  { baseE with
    id := "c89"
    status := "candidate"
    model_type := "full_time"
    created_at := "2024-03-01T00:00:00"
    metrics := [("accuracy", 89 / 100)] }

/-- Scenario entry: candidate, accuracy 0.82. -/
def s82W : Entry :=
  { baseE with
    id := "c82"
    status := "candidate"
    model_type := "full_time"
    created_at := "2024-04-01T00:00:00"
    metrics := [("accuracy", 82 / 100)] }

/-- Input dict with every required field except the `id` key. -/
def dNoIdW : ModelData :=
  { version := some "v1", algorithm := some "rf",
    metrics := some [("accuracy", 1 / 2)], status := some "candidate",
    file_path := some "p" }

/-- Input dict reusing the id `m` of `baseE` with `candidate` status. -/
def dDupW : ModelData :=
  { id := some "m", version := some "v2", algorithm := some "gb",
    metrics := some [("accuracy", 3 / 4)], status := some "candidate",
    file_path := some "q", model_type := some "T",
    description := some "second" }

/-- Two members contributing probability vectors, both with weight 0
(absent from the weight map). -/
def P4W : List (String × List ℚ) := [("a", [1 / 2, 1 / 2]), ("b", [1 / 2, 1 / 2])]

/-- Weight map for the mismatched-length scenario. -/
def W7W : List (String × ℚ) := [("a", 1 / 2), ("b", 1 / 2)]

/-- Probability vectors of lengths 2 and 3. -/
def P7W : List (String × List ℚ) :=
  [("a", [1 / 2, 1 / 2]), ("b", [3 / 10, 3 / 10, 2 / 5])]

/-- Probability vectors of lengths 1 and 3, each summing to 1. -/
def P9W : List (String × List ℚ) := [("a", [1]), ("b", [1 / 3, 1 / 3, 1 / 3])]

/-- `predict_single` outcome used by the batch witness: succeeds on item
`0`, raises on everything else. -/
def fBatchW (n : Nat) : Except String Nat :=
  if n = 0 then .ok n else .error "boom"

/-- Input dict whose `id` key is present but empty (falsy). -/
def dEmptyIdW : ModelData := { dNoIdW with id := some "" }

/-- A single contributing member whose id is absent from the weight map. -/
def P4bW : List (String × List ℚ) := [("solo", [2 / 5, 3 / 5])]

/-- A weight map that does not mention the contributing member. -/
def W4bW : List (String × ℚ) := [("other", 1 / 2)]

/-- Two members with equal-length vectors, each summing to 1. -/
def P9bW : List (String × List ℚ) := [("a", [1 / 2, 1 / 2]), ("b", [3 / 10, 7 / 10])]

/-! # Theorems -/

/-- C1 (code bug): activating an entry archives the entry itself.  Adding
an entry with status `active` to an empty registry stores it as
`archived`; with a pre-existing active sibling, both end `archived`; and
`setStatus(id, 'active')` likewise leaves the target `archived`.  The claim
(and the spec) say the target stays `active` while only the *other* active
entries of its type are demoted, matching the name and docstring of
`_deactivate_other_models`, which the code contradicts because the target
is appended/updated before the sweep and not excluded from it. -/
theorem C1_activation_archives_target :
    addModel "t1" "fid" dActW [] =
      .ok [{ mkEntry "t1" "fid" dActW with status := "archived" }] ∧
    addModel "t1" "fid" dActW [bActW] =
      .ok [{ bActW with status := "archived" },
        { mkEntry "t1" "fid" dActW with status := "archived" }] ∧
    updateModelStatus "t2" "m" "active" [baseE] =
      .ok [{ baseE with status := "archived", updated_at := some "t2" }] := by
  refine ⟨?_, ?_, ?_⟩ <;>
    simp [addModel, updateModelStatus, mkEntry, missingField, requiredFields, hasField,
      deactivateOtherModels, getModelById, updateFirst, validStatuses,
      dActW, bActW, baseE, List.find?, List.filter]

/-- C2 (counterexample): `importFrom` is a registry-mutating call after
which a `model_type` can hold two `active` entries — the merge import of
two active same-type entries into an empty ledger keeps both active, so
the claimed invariant does not hold after every mutating call. -/
theorem C2_import_two_actives :
    countActive "T" (importRegistry [aW1, aW2] true []) = 2 := by
  simp [countActive, activesOf, importRegistry, aW1, aW2, baseE, List.filter]

/-- C3 (counterexample): demoting the sole active entry with two candidates
of equal accuracy promotes the *earlier-listed, older* candidate, not the
one with the most recent `created_at` as the claim states: the scores tie,
`cOldW` precedes `cNewW` and is older, yet `cOldW` is promoted. -/
theorem C3_tie_promotes_earlier_candidate :
    accOf cOldW = accOf cNewW ∧
    cOldW.created_at < cNewW.created_at ∧
    updateModelStatus "t3" "x" "archived" [act0W, cOldW, cNewW] =
      .ok [{ act0W with status := "archived", updated_at := some "t3" },
        { cOldW with status := "active", promoted_at := some "t3" },
        cNewW] := by
  refine ⟨by norm_num [accOf, metricsGet, cOldW, cNewW, baseE, List.find?], ?_, ?_⟩
  · simp only [cOldW, cNewW, baseE]
    rw [String.lt_iff_toList_lt]
    decide
  simp [updateModelStatus, validStatuses, getModelById, updateFirst, promoteBestCandidate,
    getModelsByType, maxByAcc, accOf, metricsGet, act0W, cOldW, cNewW, baseE,
    List.find?, List.filter]

/-- C4 (counterexample): blending with probability vectors whose
contributing weights sum to 0 does not fail — it skips normalization and
returns class 0 with confidence 0 instead of raising a zero-weight
error. -/
theorem C4_zero_weight_returns_prediction :
    totalContribWeight [] P4W = 0 ∧
    weightedProbabilityEnsemble [] P4W = .ok (0, 0) := by
  constructor
  · norm_num [totalContribWeight, lookupWeight, P4W]
  · simp [weightedProbabilityEnsemble, blendedVector, blendFold, broadcastAddMul,
      lookupWeight, maxLenProb, argmaxAux, P4W, List.replicate, List.zipWith]

/-- C7 (counterexample): members contributing probability vectors of
lengths 2 and 3 make the blend raise a numpy broadcast error; missing
classes are not treated as probability 0. -/
theorem C7_length_mismatch_fails :
    weightedProbabilityEnsemble W7W P7W =
      .error "operands could not be broadcast together" := by
  simp [weightedProbabilityEnsemble, blendedVector, blendFold, broadcastAddMul,
    lookupWeight, maxLenProb, W7W, P7W, List.find?, List.replicate]

/-- C8 (counterexample): an input dict lacking the `id` key (all other
required fields present) is rejected with the validation error — the code
never reaches the generated-id branch, contrary to the claim that an
absent id is replaced by a generated one. -/
theorem C8_missing_id_rejected :
    addModel "t" "fresh" dNoIdW [] = .error "Missing required field: id" := by
  simp [addModel, missingField, requiredFields, hasField, dNoIdW, List.find?]

/-- C9 (counterexample): with vectors of lengths 1 and 3, each summing
to 1, and total contributing weight 1, numpy broadcasting spreads the
length-1 vector over all three classes and the normalized blend sums
to 2, not 1. -/
theorem C9_broadcast_blend_sums_to_two :
    (([1] : List ℚ).sum = 1 ∧ ([1 / 3, 1 / 3, 1 / 3] : List ℚ).sum = 1) ∧
    totalContribWeight W7W P9W = 1 ∧
    blendedVector W7W P9W = .ok [2 / 3, 2 / 3, 2 / 3] ∧
    ([2 / 3, 2 / 3, 2 / 3] : List ℚ).sum = (2 : ℚ) := by
  have ha : lookupWeight W7W "a" = 1 / 2 := by simp [lookupWeight, W7W, List.find?]
  have hb : lookupWeight W7W "b" = 1 / 2 := by simp [lookupWeight, W7W, List.find?]
  refine ⟨⟨by norm_num, by norm_num⟩, ?_, ?_, by norm_num⟩
  · norm_num [totalContribWeight, P9W, ha, hb]
  · simp [blendedVector, blendFold, broadcastAddMul, maxLenProb, P9W, ha, hb,
      List.replicate, List.zipWith]
    norm_num

/-- Archiving a type's active entries never changes any entry's id. -/
theorem deactivate_map_id (ty : String) (ms : List Entry) :
    (deactivateOtherModels ty ms).map (fun m => m.id) = ms.map (fun m => m.id) := by
  simp only [deactivateOtherModels, List.map_map]
  congr 1
  funext m
  simp only [Function.comp_apply]
  split <;> rfl

/-- C5 (confirmed): `predict_batch` returns exactly one slot per input item
and isolates per-item failures: the output has the input's length, a failing
`predict_single` yields an error record at the same index carrying the
message and the timestamp, and a successful one yields its result at that
index.  No exception escapes the loop (the result is a total list). -/
theorem C5_predict_batch_isolation {α ρ : Type} (f : α → Except String ρ)
    (ts : String) (items : List α) :
    (predictBatch f ts items).length = items.length ∧
    ∀ (i : Nat) (it : α), items[i]? = some it →
      (∀ e, f it = .error e → (predictBatch f ts items)[i]? = some (.err i e ts)) ∧
      (∀ r, f it = .ok r → (predictBatch f ts items)[i]? = some (.ok i r)) := by
  constructor
  · simp [predictBatch, List.enum_length]
  · intro i it hit
    constructor
    · intro e he
      simp [predictBatch, List.getElem?_enum, hit, he]
    · intro r hr
      simp [predictBatch, List.getElem?_enum, hit, hr]

/-- Witness for C5 on a concrete two-item batch whose second item fails. -/
theorem C5_predict_batch_isolation_witness :
    (predictBatch fBatchW "ts" [0, 1]).length = 2 ∧
    (predictBatch fBatchW "ts" [0, 1])[0]? = some (.ok 0 0) ∧
    (predictBatch fBatchW "ts" [0, 1])[1]? = some (.err 1 "boom" "ts") := by
  obtain ⟨hlen, hidx⟩ := C5_predict_batch_isolation fBatchW "ts" [0, 1]
  exact ⟨hlen, (hidx 0 0 rfl).2 0 rfl, (hidx 1 1 rfl).1 "boom" rfl⟩

/-- C8 (amended, theorem): `add` fails with the validation error exactly
when one of the six required keys — the id key included — is absent from
the input dict, naming the first missing field, and on failure the ledger
is unchanged (no new ledger is produced); when all keys are present, `add`
succeeds and appends exactly one entry whose id is the given id when it is
truthy and the generated id when it is present but empty. -/
theorem C8_add_validation (now fid : String) (d : ModelData) (ms : List Entry) :
    (∀ f, missingField d = some f →
      addModel now fid d ms = .error ("Missing required field: " ++ f)) ∧
    (missingField d = none → ∃ ms2, addModel now fid d ms = .ok ms2 ∧
      ms2.map (fun m => m.id) =
        ms.map (fun m => m.id) ++ [if d.id.getD "" = "" then fid else d.id.getD ""]) := by
  constructor
  · intro f hf
    simp [addModel, hf]
  · intro hnone
    refine ⟨if (mkEntry now fid d).status == "active" then
        deactivateOtherModels (mkEntry now fid d).model_type (ms ++ [mkEntry now fid d])
      else ms ++ [mkEntry now fid d], ?_, ?_⟩
    · simp [addModel, hnone]
    · by_cases hact : ((mkEntry now fid d).status == "active") = true
      · rw [if_pos hact, deactivate_map_id]
        simp [mkEntry]
      · rw [if_neg hact]
        simp [mkEntry]

/-- Witness for C8: the dict missing its id key is rejected; the dict with
an empty id is accepted and stored under the generated id. -/
theorem C8_add_validation_witness :
    addModel "t" "fresh" dNoIdW [] = .error ("Missing required field: " ++ "id") ∧
    ∃ ms2, addModel "t" "fresh" dEmptyIdW [] = .ok ms2 ∧
      ms2.map (fun m => m.id) = ["fresh"] := by
  constructor
  · exact (C8_add_validation "t" "fresh" dNoIdW []).1 "id" rfl
  · obtain ⟨ms2, h1, h2⟩ := (C8_add_validation "t" "fresh" dEmptyIdW []).2 rfl
    exact ⟨ms2, h1, by simpa using h2⟩

/-- C10 (confirmed): the registry never enforces id uniqueness — adding an
entry whose id equals the id `X` of an entry already in the ledger
succeeds, appends it (so two entries share id `X`), and `getById X` still
returns the earliest-inserted entry with that id. -/
theorem C10_duplicate_ids_allowed (now fid X : String) (d : ModelData)
    (ms : List Entry) (e0 : Entry)
    (hfind : getModelById X ms = some e0)
    (hid : d.id = some X) (hX : X ≠ "")
    (hmf : missingField d = none)
    (hstat : d.status.getD "candidate" ≠ "active") :
    ∃ ms2, addModel now fid d ms = .ok ms2 ∧
      ms2 = ms ++ [mkEntry now fid d] ∧
      (mkEntry now fid d).id = X ∧
      getModelById X ms2 = some e0 := by
  have hst : ((mkEntry now fid d).status == "active") = false :=
    beq_eq_false_iff_ne.mpr hstat
  refine ⟨ms ++ [mkEntry now fid d], ?_, rfl, ?_, ?_⟩
  · simp [addModel, hmf, hst]
  · simp [mkEntry, hid, hX]
  · unfold getModelById at hfind ⊢
    rw [List.find?_append, hfind]
    rfl

/-- Witness for C10: re-adding id `m` next to `baseE` keeps both entries
and `getById m` returns `baseE`, the earlier one. -/
theorem C10_duplicate_ids_allowed_witness :
    ∃ ms2, addModel "t9" "f" dDupW [baseE] = .ok ms2 ∧
      ms2 = [baseE] ++ [mkEntry "t9" "f" dDupW] ∧
      (mkEntry "t9" "f" dDupW).id = "m" ∧
      getModelById "m" ms2 = some baseE :=
  C10_duplicate_ids_allowed "t9" "f" "m" dDupW [baseE] baseE rfl rfl
    (by decide) rfl (by decide)

/-- A successful in-place broadcast add keeps the accumulator length. -/
theorem broadcastAddMul_length {accv p : List ℚ} {w : ℚ} {accv2 : List ℚ}
    (h : broadcastAddMul accv p w = .ok accv2) : accv2.length = accv.length := by
  unfold broadcastAddMul at h
  split at h
  · cases h
    simp [List.length_zipWith]
    omega
  · split at h
    · cases h
      simp
    · cases h

/-- Adding `p * 0` element-wise leaves the accumulator unchanged. -/
theorem zipWith_addmul_zero :
    ∀ v p : List ℚ, p.length = v.length →
      List.zipWith (fun a b => a + b * (0 : ℚ)) v p = v := by
  intro v
  induction v with
  | nil => intro p _; simp
  | cons a as ih =>
    intro p hp
    cases p with
    | nil => simp at hp
    | cons b bs =>
      simp only [List.zipWith]
      rw [ih bs (by simpa using hp)]
      ring_nf

/-- Element-wise accumulation adds `w` times the vector's sum. -/
theorem zipWith_addmul_sum (w : ℚ) :
    ∀ v p : List ℚ, p.length = v.length →
      (List.zipWith (fun a b => a + b * w) v p).sum = v.sum + w * p.sum := by
  intro v
  induction v with
  | nil =>
    intro p hp
    rw [List.length_nil, List.length_eq_zero] at hp
    subst hp
    simp
  | cons a as ih =>
    intro p hp
    cases p with
    | nil => simp at hp
    | cons b bs =>
      simp only [List.zipWith, List.sum_cons]
      rw [ih bs (by simpa using hp)]
      ring

/-- Dividing every element divides the sum. -/
theorem sum_map_div (t : ℚ) :
    ∀ v : List ℚ, (v.map (fun a => a / t)).sum = v.sum / t := by
  intro v
  induction v with
  | nil => simp
  | cons a as ih =>
    simp only [List.map_cons, List.sum_cons, ih]
    ring

/-- When every member's weight is 0 the accumulation loop leaves both the
vector and the running weight unchanged. -/
theorem blendFold_zero_weights (ws : List (String × ℚ)) :
    ∀ (ps2 : List (String × List ℚ)) (accv : List ℚ) (tw : ℚ),
      (∀ pr ∈ ps2, (pr.2 : List ℚ).length = accv.length) →
      (∀ pr ∈ ps2, lookupWeight ws pr.1 = 0) →
      blendFold ws accv tw ps2 = .ok (accv, tw) := by
  intro ps2
  induction ps2 with
  | nil => intro accv tw _ _; rfl
  | cons pr rest ih =>
    intro accv tw h1 h2
    obtain ⟨mid, p⟩ := pr
    have hw : lookupWeight ws mid = 0 := h2 (mid, p) (List.mem_cons_self _ _)
    have hl : p.length = accv.length := h1 (mid, p) (List.mem_cons_self _ _)
    have hb : broadcastAddMul accv p (lookupWeight ws mid) = .ok accv := by
      rw [hw]
      unfold broadcastAddMul
      rw [if_pos hl, zipWith_addmul_zero accv p hl]
    simp only [blendFold]
    rw [hb, hw, add_zero]
    exact ih accv tw (fun q hq => h1 q (by simp [hq])) (fun q hq => h2 q (by simp [hq]))

/-- `np.argmax` of an all-zero tail starting from best value 0 stays at the
initial index. -/
theorem argmaxAux_zeros (bi : Nat) :
    ∀ (k i : Nat), argmaxAux bi 0 i (List.replicate k (0 : ℚ)) = bi := by
  intro k
  induction k with
  | zero => intro i; rfl
  | succ n ih =>
    intro i
    show (if (0 : ℚ) < 0 then _ else argmaxAux bi 0 (i + 1) (List.replicate n 0)) = bi
    rw [if_neg (lt_irrefl 0)]
    exact ih (i + 1)

/-- `np.max` of an all-zero list is 0. -/
theorem foldl_max_zeros :
    ∀ k : Nat, (List.replicate k (0 : ℚ)).foldl max 0 = 0 := by
  intro k
  induction k with
  | zero => rfl
  | succ n ih =>
    show (List.replicate n (0 : ℚ)).foldl max (max 0 0) = 0
    rw [max_self]
    exact ih

/-- C4 (amended, theorem): when at least one member contributes a
probability vector (all of the maximal length, which is nonzero) but every
contributing member's weight is 0, the blend does not raise a zero-weight
error — the guard `total_weight > 0` merely skips normalization and the
call returns class 0 with confidence 0. -/
theorem C4_zero_weight_returns_class_zero (ws : List (String × ℚ))
    (ps : List (String × List ℚ))
    (hpos : 0 < maxLenProb ps)
    (hlen : ∀ pr ∈ ps, (pr.2 : List ℚ).length = maxLenProb ps)
    (hz : ∀ pr ∈ ps, lookupWeight ws pr.1 = 0) :
    weightedProbabilityEnsemble ws ps = .ok (0, 0) := by
  obtain ⟨k, hk⟩ : ∃ k, maxLenProb ps = k + 1 :=
    ⟨maxLenProb ps - 1, by omega⟩
  have hfold : blendFold ws (List.replicate (maxLenProb ps) 0) 0 ps =
      .ok (List.replicate (maxLenProb ps) 0, 0) :=
    blendFold_zero_weights ws ps _ 0 (by simpa using hlen) hz
  have hbv : blendedVector ws ps = .ok (List.replicate (maxLenProb ps) 0) := by
    unfold blendedVector
    rw [hfold]
    simp
  rw [hk] at hbv
  unfold weightedProbabilityEnsemble
  rw [hbv, List.replicate_succ]
  show Except.ok (argmaxAux 0 0 1 (List.replicate k 0), (List.replicate k 0).foldl max 0) = _
  rw [argmaxAux_zeros 0 k 1, foldl_max_zeros k]

/-- Witness for C4 at a single contributing member absent from the weight
map. -/
theorem C4_zero_weight_returns_class_zero_witness :
    weightedProbabilityEnsemble W4bW P4bW = .ok (0, 0) :=
  C4_zero_weight_returns_class_zero W4bW P4bW (by decide) (by decide) (by decide)

/-- A vector that can be broadcast against neither the accumulator length
nor as a scalar aborts the accumulation loop with an error. -/
theorem blendFold_error_of_bad (ws : List (String × ℚ)) :
    ∀ (ps2 : List (String × List ℚ)) (accv : List ℚ) (tw : ℚ)
      (bad : String × List ℚ), bad ∈ ps2 →
      (bad.2 : List ℚ).length ≠ accv.length → (bad.2 : List ℚ).length ≠ 1 →
      ∃ e, blendFold ws accv tw ps2 = .error e := by
  intro ps2
  induction ps2 with
  | nil => intro accv tw bad hmem; cases hmem
  | cons pr rest ih =>
    intro accv tw bad hmem hne h1
    obtain ⟨mid, p⟩ := pr
    cases hb : broadcastAddMul accv p (lookupWeight ws mid) with
    | error e =>
      exact ⟨e, by
        simp only [blendFold]
        rw [hb]⟩
    | ok accv2 =>
      rcases List.mem_cons.mp hmem with heq | hmem2
      · exfalso
        subst heq
        unfold broadcastAddMul at hb
        rw [if_neg hne, if_neg h1] at hb
        cases hb
      · have hlen2 : accv2.length = accv.length := broadcastAddMul_length hb
        obtain ⟨e, he⟩ := ih accv2 (tw + lookupWeight ws mid) bad hmem2
          (by rw [hlen2]; exact hne) h1
        exact ⟨e, by
          simp only [blendFold]
          rw [hb]
          exact he⟩

/-- C7 (amended, theorem): when some member's probability vector has a
length different from the longest one and from 1, the blend fails with a
broadcast error — missing classes are never padded with probability 0
(only length-1 vectors broadcast instead of erroring). -/
theorem C7_mismatched_vector_fails (ws : List (String × ℚ))
    (ps : List (String × List ℚ)) (bad : String × List ℚ)
    (hmem : bad ∈ ps)
    (hne : (bad.2 : List ℚ).length ≠ maxLenProb ps)
    (h1 : (bad.2 : List ℚ).length ≠ 1) :
    ∃ e, weightedProbabilityEnsemble ws ps = .error e := by
  obtain ⟨e, he⟩ := blendFold_error_of_bad ws ps
    (List.replicate (maxLenProb ps) 0) 0 bad hmem (by simpa using hne) h1
  refine ⟨e, ?_⟩
  unfold weightedProbabilityEnsemble blendedVector
  rw [he]

/-- Witness for C7 at vectors of lengths 2 and 3. -/
theorem C7_mismatched_vector_fails_witness :
    ∃ e, weightedProbabilityEnsemble W7W P7W = .error e :=
  C7_mismatched_vector_fails W7W P7W ("a", [1 / 2, 1 / 2])
    (by unfold P7W; exact List.mem_cons_self _ _) (by decide) (by decide)

/-- If every vector has length `L` and the list is nonempty, the maximal
length is `L` (folded from any seed). -/
theorem foldl_maxlen (L : Nat) :
    ∀ (ps2 : List (String × List ℚ)) (a : Nat),
      (∀ pr ∈ ps2, (pr.2 : List ℚ).length = L) → ps2 ≠ [] →
      ps2.foldl (fun n p => max n p.2.length) a = max a L := by
  intro ps2
  induction ps2 with
  | nil => intro a _ hne; exact absurd rfl hne
  | cons pr rest ih =>
    intro a h _
    have hl : pr.2.length = L := h pr (List.mem_cons_self _ _)
    show rest.foldl (fun n p => max n p.2.length) (max a pr.2.length) = max a L
    rw [hl]
    cases rest with
    | nil => rfl
    | cons q qs =>
      rw [ih (max a L) (fun r hr => h r (List.mem_cons_of_mem _ hr)) (by simp)]
      rw [max_assoc, max_self]

/-- `maxLenProb` of a nonempty family of equal-length vectors. -/
theorem maxLenProb_const {ps : List (String × List ℚ)} {L : Nat}
    (hne : ps ≠ []) (hlen : ∀ pr ∈ ps, (pr.2 : List ℚ).length = L) :
    maxLenProb ps = L := by
  unfold maxLenProb
  rw [foldl_maxlen L ps 0 hlen hne]
  simp

/-- The accumulation loop on equal-length unit-sum vectors: it succeeds,
adds the contributing weights to the running total, and adds the same
amount to the vector's sum. -/
theorem blendFold_sum (ws : List (String × ℚ)) :
    ∀ (ps2 : List (String × List ℚ)) (accv : List ℚ) (tw : ℚ),
      (∀ pr ∈ ps2, (pr.2 : List ℚ).length = accv.length) →
      (∀ pr ∈ ps2, (pr.2 : List ℚ).sum = 1) →
      ∃ v, blendFold ws accv tw ps2 = .ok (v, tw + totalContribWeight ws ps2) ∧
        v.sum = accv.sum + totalContribWeight ws ps2 ∧ v.length = accv.length := by
  intro ps2
  induction ps2 with
  | nil =>
    intro accv tw _ _
    exact ⟨accv, by simp [blendFold, totalContribWeight], by simp [totalContribWeight], rfl⟩
  | cons pr rest ih =>
    intro accv tw h1 h2
    obtain ⟨mid, p⟩ := pr
    have hl : p.length = accv.length := h1 (mid, p) (List.mem_cons_self _ _)
    have hs : p.sum = 1 := h2 (mid, p) (List.mem_cons_self _ _)
    set w := lookupWeight ws mid with hwdef
    set accv2 := List.zipWith (fun a b => a + b * w) accv p with haccv2
    have hb : broadcastAddMul accv p w = .ok accv2 := by
      unfold broadcastAddMul
      rw [if_pos hl]
    have hlen2 : accv2.length = accv.length := by
      rw [haccv2, List.length_zipWith, hl, min_self]
    have hsum2 : accv2.sum = accv.sum + w := by
      rw [haccv2, zipWith_addmul_sum w accv p hl, hs, mul_one]
    obtain ⟨v, hfold, hvsum, hvlen⟩ := ih accv2 (tw + w)
      (fun q hq => by rw [hlen2]; exact h1 q (List.mem_cons_of_mem _ hq))
      (fun q hq => h2 q (List.mem_cons_of_mem _ hq))
    have htcw : totalContribWeight ws ((mid, p) :: rest) =
        w + totalContribWeight ws rest := by
      simp [totalContribWeight, hwdef]
    refine ⟨v, ?_, ?_, by rw [hvlen, hlen2]⟩
    · simp only [blendFold]
      rw [hb]
      show blendFold ws accv2 (tw + lookupWeight ws mid) rest = _
      rw [← hwdef, hfold, htcw, ← add_assoc]
    · rw [hvsum, hsum2, htcw]
      ring

/-- C9 (amended, theorem): for a nonempty set of members contributing
probability vectors of one common length, each summing to 1, with positive
total contributing weight, the normalized blended vector sums to 1.  (The
equal-length hypothesis is what the counterexample forces: a length-1
vector broadcasts across all classes and inflates the sum.) -/
theorem C9_equal_length_blend_sums_to_one (ws : List (String × ℚ))
    (ps : List (String × List ℚ)) (L : Nat)
    (hne : ps ≠ [])
    (hlen : ∀ pr ∈ ps, (pr.2 : List ℚ).length = L)
    (hsum : ∀ pr ∈ ps, (pr.2 : List ℚ).sum = 1)
    (hw : 0 < totalContribWeight ws ps) :
    ∃ v, blendedVector ws ps = .ok v ∧ v.sum = 1 := by
  have hmax : maxLenProb ps = L := maxLenProb_const hne hlen
  obtain ⟨v, hfold, hvsum, _⟩ := blendFold_sum ws ps (List.replicate (maxLenProb ps) 0) 0
    (fun pr hpr => by rw [List.length_replicate, hmax]; exact hlen pr hpr) hsum
  rw [zero_add] at hfold
  have hv0 : v.sum = totalContribWeight ws ps := by
    rw [hvsum]
    simp
  refine ⟨v.map (fun a => a / totalContribWeight ws ps), ?_, ?_⟩
  · unfold blendedVector
    rw [hfold]
    show Except.ok (if 0 < totalContribWeight ws ps then
      v.map (fun a => a / totalContribWeight ws ps) else v) = _
    rw [if_pos hw]
  · rw [sum_map_div, hv0, div_self (ne_of_gt hw)]

/-- Witness for C9 at two equal-length unit-sum vectors with total
weight 1. -/
theorem C9_equal_length_blend_sums_to_one_witness :
    ∃ v, blendedVector W7W P9bW = .ok v ∧ v.sum = 1 := by
  refine C9_equal_length_blend_sums_to_one W7W P9bW 2 (by decide) (by decide) ?_ ?_
  · intro pr hpr
    fin_cases hpr <;> norm_num
  · have ha : lookupWeight W7W "a" = 1 / 2 := by simp [lookupWeight, W7W, List.find?]
    have hb2 : lookupWeight W7W "b" = 1 / 2 := by simp [lookupWeight, W7W, List.find?]
    norm_num [totalContribWeight, P9bW, ha, hb2]

/-! ### Counting lemmas for the single-active invariant -/

/-- `activesOf` distributes over append. -/
theorem activesOf_append (ty : String) (l1 l2 : List Entry) :
    activesOf ty (l1 ++ l2) = activesOf ty l1 ++ activesOf ty l2 := by
  simp [activesOf, List.filter_append]

/-- `countActive` adds over append. -/
theorem countActive_append (ty : String) (l1 l2 : List Entry) :
    countActive ty (l1 ++ l2) = countActive ty l1 + countActive ty l2 := by
  simp [countActive, activesOf_append]

/-- The active count of a singleton ledger. -/
theorem countActive_singleton (ty : String) (e : Entry) :
    countActive ty [e] = if e.model_type = ty ∧ e.status = "active" then 1 else 0 := by
  simp only [countActive, activesOf, List.filter_singleton]
  by_cases h : e.model_type = ty ∧ e.status = "active"
  · rw [if_pos h,
      show (e.model_type == ty && e.status == "active") = true by simp [h.1, h.2]]
    rfl
  · rw [if_neg h,
      show (e.model_type == ty && e.status == "active") = false by
        rcases not_and_or.mp h with hh | hh
        · rw [beq_eq_false_iff_ne.mpr hh, Bool.false_and]
        · rw [beq_eq_false_iff_ne.mpr hh, Bool.and_false]]
    rfl

/-- The active count of a cons cell. -/
theorem countActive_cons (ty : String) (e : Entry) (l : List Entry) :
    countActive ty (e :: l) =
      (if e.model_type = ty ∧ e.status = "active" then 1 else 0) + countActive ty l := by
  show countActive ty ([e] ++ l) = _
  rw [countActive_append, countActive_singleton]

/-- The active count never exceeds the ledger size. -/
theorem countActive_le_length (ty : String) (ms : List Entry) :
    countActive ty ms ≤ ms.length := by
  simpa [countActive, activesOf] using List.length_filter_le _ ms

/-- After archiving a type's actives, that type has no active entry. -/
theorem countActive_deactivate_self (ty : String) (ms : List Entry) :
    countActive ty (deactivateOtherModels ty ms) = 0 := by
  induction ms with
  | nil => rfl
  | cons m rest ih =>
    rw [show deactivateOtherModels ty (m :: rest) =
      (if m.model_type == ty && m.status == "active" && m.status != "candidate"
        then { m with status := "archived" } else m) :: deactivateOtherModels ty rest
      from rfl, countActive_cons, ih]
    by_cases hc : (m.model_type == ty && m.status == "active" && m.status != "candidate") = true
    · rw [if_pos hc]
      simp
    · rw [if_neg hc]
      have hno : ¬(m.model_type = ty ∧ m.status = "active") := by
        rintro ⟨ha, hb⟩
        exact hc (by simp [ha, hb])
      rw [if_neg hno]

/-- Archiving one type's actives does not change another type's count. -/
theorem countActive_deactivate_other (ty ty2 : String) (ms : List Entry)
    (h : ty2 ≠ ty) :
    countActive ty2 (deactivateOtherModels ty ms) = countActive ty2 ms := by
  induction ms with
  | nil => rfl
  | cons m rest ih =>
    rw [show deactivateOtherModels ty (m :: rest) =
      (if m.model_type == ty && m.status == "active" && m.status != "candidate"
        then { m with status := "archived" } else m) :: deactivateOtherModels ty rest
      from rfl, countActive_cons, ih, countActive_cons]
    congr 1
    by_cases hc : (m.model_type == ty && m.status == "active" && m.status != "candidate") = true
    · rw [if_pos hc]
      have hty : m.model_type = ty := by
        simp only [Bool.and_eq_true, beq_iff_eq] at hc
        exact hc.1.1
      rw [if_neg (by rintro ⟨h4, _⟩; exact h (h4 ▸ hty ▸ rfl)),
        if_neg (by rintro ⟨h4, _⟩; exact h (h4 ▸ hty ▸ rfl))]
    · rw [if_neg hc]

/-- `updateFirst` rewrites exactly the entry that `find?` locates, leaving
the prefix (which fails the predicate) and the suffix untouched. -/
theorem updateFirst_decomp (p : Entry → Bool) (f : Entry → Entry) :
    ∀ (ms : List Entry) (x : Entry), ms.find? p = some x →
      ∃ l1 l2, ms = l1 ++ x :: l2 ∧ (∀ y ∈ l1, p y = false) ∧ p x = true ∧
        updateFirst p f ms = l1 ++ f x :: l2 := by
  intro ms
  induction ms with
  | nil => intro x hx; cases hx
  | cons m rest ih =>
    intro x hx
    by_cases hm : p m = true
    · rw [List.find?_cons_of_pos _ hm] at hx
      cases hx
      refine ⟨[], rest, rfl, ?_, hm, ?_⟩
      · intro y hy
        cases hy
      · rw [show updateFirst p f (m :: rest) =
          if p m then f m :: rest else m :: updateFirst p f rest from rfl, if_pos hm]
        rfl
    · have hm2 : p m = false := by
        cases hpm : p m
        · rfl
        · exact absurd hpm hm
      rw [List.find?_cons_of_neg _ (by rw [hm2]; exact Bool.false_ne_true)] at hx
      obtain ⟨l1, l2, hsplit, hpre, hpx, hupd⟩ := ih x hx
      refine ⟨m :: l1, l2, by rw [hsplit, List.cons_append], ?_, hpx, ?_⟩
      · intro y hy
        rcases List.mem_cons.mp hy with rfl | hy2
        · exact hm2
        · exact hpre y hy2
      · rw [show updateFirst p f (m :: rest) =
          if p m then f m :: rest else m :: updateFirst p f rest from rfl,
          if_neg (by rw [hm2]; exact Bool.false_ne_true), hupd, List.cons_append]

/-- Structural-equality search finds a member itself. -/
theorem find?_beq_self_of_mem :
    ∀ (ms : List Entry) (b : Entry), b ∈ ms →
      ms.find? (fun m => m == b) = some b := by
  intro ms
  induction ms with
  | nil => intro b hb; cases hb
  | cons m rest ih =>
    intro b hb
    by_cases hm : m = b
    · subst hm
      exact List.find?_cons_of_pos _ (by simp)
    · rcases List.mem_cons.mp hb with rfl | hb2
      · exact absurd rfl hm
      · rw [List.find?_cons_of_neg _ (by simp [hm])]
        exact ih b hb2

/-- Python's `max` returns a member of the list. -/
theorem maxByAcc_mem : ∀ (cs : List Entry) (c : Entry), maxByAcc c cs ∈ c :: cs := by
  intro cs
  induction cs with
  | nil => intro c; exact List.mem_cons_self _ _
  | cons x xs ih =>
    intro c
    show (if accOf c < accOf x then maxByAcc x xs else maxByAcc c xs) ∈ _
    by_cases h : accOf c < accOf x
    · rw [if_pos h]
      rcases List.mem_cons.mp (ih x) with he | hm
      · rw [he]
        exact List.mem_cons_of_mem _ (List.mem_cons_self _ _)
      · exact List.mem_cons_of_mem _ (List.mem_cons_of_mem _ hm)
    · rw [if_neg h]
      rcases List.mem_cons.mp (ih c) with he | hm
      · rw [he]
        exact List.mem_cons_self _ _
      · exact List.mem_cons_of_mem _ (List.mem_cons_of_mem _ hm)

/-- `_promote_best_candidate` either does nothing (no candidate of the
type) or rewrites exactly one entry — a candidate of the type — to
`active`. -/
theorem promote_cases (now ty : String) (ms : List Entry) :
    promoteBestCandidate now ty ms = ms ∨
    ∃ l1 b l2, ms = l1 ++ b :: l2 ∧ b.model_type = ty ∧ b.status = "candidate" ∧
      promoteBestCandidate now ty ms =
        l1 ++ { b with status := "active", promoted_at := some now } :: l2 := by
  cases hc : (getModelsByType ty ms).filter (fun c => c.status == "candidate") with
  | nil =>
    left
    rw [show promoteBestCandidate now ty ms =
      (match (getModelsByType ty ms).filter (fun c => c.status == "candidate") with
      | [] => ms
      | c :: cs => updateFirst (fun m => m == maxByAcc c cs)
          (fun m => { m with status := "active", promoted_at := some now }) ms)
      from rfl, hc]
  | cons c cs =>
    right
    have hbmem : maxByAcc c cs ∈ c :: cs := maxByAcc_mem cs c
    rw [← hc] at hbmem
    have hmem2 := List.mem_filter.mp hbmem
    have hmem3 := List.mem_filter.mp hmem2.1
    have hbty : (maxByAcc c cs).model_type = ty := by
      have := hmem3.2
      simpa using this
    have hbcand : (maxByAcc c cs).status = "candidate" := by
      have := hmem2.2
      simpa using this
    have hfind : ms.find? (fun m => m == maxByAcc c cs) = some (maxByAcc c cs) :=
      find?_beq_self_of_mem ms _ hmem3.1
    obtain ⟨l1, l2, hsplit, _, _, hupd⟩ := updateFirst_decomp
      (fun m => m == maxByAcc c cs)
      (fun m => { m with status := "active", promoted_at := some now }) ms _ hfind
    refine ⟨l1, maxByAcc c cs, l2, hsplit, hbty, hbcand, ?_⟩
    rw [show promoteBestCandidate now ty ms =
      (match (getModelsByType ty ms).filter (fun c => c.status == "candidate") with
      | [] => ms
      | c :: cs => updateFirst (fun m => m == maxByAcc c cs)
          (fun m => { m with status := "active", promoted_at := some now }) ms)
      from rfl, hc]
    show updateFirst (fun m => m == maxByAcc c cs)
      (fun m => { m with status := "active", promoted_at := some now }) ms = _
    exact hupd

/-- Erasing a batch of entries yields a sublist of the ledger. -/
theorem foldl_erase_sublist :
    ∀ (rs ms : List Entry), (rs.foldl (fun cur m => cur.erase m) ms).Sublist ms := by
  intro rs
  induction rs with
  | nil => intro ms; exact List.Sublist.refl ms
  | cons r rest ih =>
    intro ms
    exact (ih (ms.erase r)).trans (ms.erase_sublist r)

/-- `cleanup_old_models` only removes entries: the new ledger is a sublist
of the old one. -/
theorem cleanup_sublist (keep : Nat) (ms : List Entry) :
    (cleanupOldModels keep ms).1.Sublist ms :=
  foldl_erase_sublist _ ms

/-- Active counts are monotone under sublists. -/
theorem countActive_le_of_sublist (ty : String) {l1 l2 : List Entry}
    (h : l1.Sublist l2) : countActive ty l1 ≤ countActive ty l2 :=
  (h.filter _).length_le

/-- Replacing the middle entry by another one, neither counting as active
for the type, keeps the type's active count. -/
theorem countActive_update_mid (ty : String) (l1 l2 : List Entry) (x y : Entry)
    (hx : ¬(x.model_type = ty ∧ x.status = "active"))
    (hy : ¬(y.model_type = ty ∧ y.status = "active")) :
    countActive ty (l1 ++ x :: l2) = countActive ty (l1 ++ y :: l2) := by
  rw [countActive_append, countActive_append, countActive_cons, countActive_cons,
    if_neg hx, if_neg hy]

/-- Promotion adds at most one active entry of its type. -/
theorem promote_count_le (now ty : String) (ms : List Entry) :
    countActive ty (promoteBestCandidate now ty ms) ≤ countActive ty ms + 1 := by
  rcases promote_cases now ty ms with heq | ⟨l1, b, l2, hsplit, _, _, hres⟩
  · rw [heq]
    omega
  · rw [hres, hsplit, countActive_append, countActive_append, countActive_cons,
      countActive_cons]
    split_ifs <;> omega

/-- Promotion of one type never touches another type's active count. -/
theorem promote_count_other (now ty ty2 : String) (ms : List Entry)
    (h : ty2 ≠ ty) :
    countActive ty2 (promoteBestCandidate now ty ms) = countActive ty2 ms := by
  rcases promote_cases now ty ms with heq | ⟨l1, b, l2, hsplit, hbty, _, hres⟩
  · rw [heq]
  · rw [hres, hsplit]
    exact countActive_update_mid ty2 l1 l2 _ b
      (by rintro ⟨hh, _⟩; exact h (by rw [← hh]; exact hbty))
      (by rintro ⟨hh, _⟩; exact h (by rw [← hh]; exact hbty))

/-- C2 (amended, theorem): starting from a ledger satisfying the
≤1-active-per-type invariant, `add`, `setStatus` and `cleanup` preserve it
(import does not, which is what the counterexample exhibits). -/
theorem C2_add_setStatus_cleanup_preserve_invariant (ms : List Entry)
    (hInv : ActiveInvariant ms) :
    (∀ now fid d ms2, addModel now fid d ms = .ok ms2 → ActiveInvariant ms2) ∧
    (∀ now mid s ms2, updateModelStatus now mid s ms = .ok ms2 → ActiveInvariant ms2) ∧
    (∀ keep, ActiveInvariant (cleanupOldModels keep ms).1) := by
  refine ⟨?_, ?_, ?_⟩
  · intro now fid d ms2 h
    cases hmf : missingField d with
    | some f =>
      simp [addModel, hmf] at h
    | none =>
      simp only [addModel, hmf, Except.ok.injEq] at h
      by_cases hact : ((mkEntry now fid d).status == "active") = true
      · rw [if_pos hact] at h
        subst h
        intro ty
        by_cases hty : ty = (mkEntry now fid d).model_type
        · subst hty
          rw [countActive_deactivate_self]
          omega
        · rw [countActive_deactivate_other _ _ _ hty, countActive_append,
            countActive_singleton,
            if_neg (by rintro ⟨hh, _⟩; exact hty hh.symm)]
          have := hInv ty
          omega
      · rw [if_neg hact] at h
        subst h
        intro ty
        rw [countActive_append, countActive_singleton,
          if_neg (by rintro ⟨_, hst⟩; exact hact (by simp [hst]))]
        have := hInv ty
        omega
  · intro now mid s ms2 h
    by_cases hv : (validStatuses.contains s) = true
    case neg =>
      exfalso
      unfold updateModelStatus at h
      rw [if_pos (by rw [Bool.eq_false_iff.mpr hv]; rfl)] at h
      cases h
    case pos =>
      cases hfind : getModelById mid ms with
      | none =>
        exfalso
        unfold updateModelStatus at h
        rw [if_neg (by rw [hv]; decide), hfind] at h
        cases h
      | some model =>
        unfold updateModelStatus at h
        rw [if_neg (by rw [hv]; decide), hfind] at h
        simp only [Except.ok.injEq] at h
        have hfind2 : ms.find? (fun m => m.id == mid) = some model := hfind
        obtain ⟨l1, l2, hsplit, hpre, hpx, hupd⟩ := updateFirst_decomp
          (fun m => m.id == mid)
          (fun m => { m with status := s, updated_at := some now }) ms model hfind2
        by_cases hs : (s == "active") = true
        · rw [if_pos hs] at h
          subst h
          intro ty
          by_cases hty : ty = model.model_type
          · subst hty
            rw [countActive_deactivate_self]
            omega
          · rw [countActive_deactivate_other _ _ _ hty, hupd]
            rw [countActive_update_mid ty l1 l2 _ model
              (by rintro ⟨hh, _⟩; exact hty (by rw [← hh]))
              (by rintro ⟨hh, _⟩; exact hty (by rw [← hh]))]
            have := hInv ty
            rw [hsplit] at this
            exact this
        · rw [if_neg hs] at h
          have hsne : s ≠ "active" := fun hcon => hs (by simp [hcon])
          by_cases hold : (model.status == "active" && s != "active") = true
          · rw [if_pos hold] at h
            subst h
            have homodel : model.status = "active" := by
              simp only [Bool.and_eq_true, beq_iff_eq] at hold
              exact hold.1
            intro ty
            by_cases hty : ty = model.model_type
            · subst hty
              have h1 := hInv model.model_type
              rw [hsplit, countActive_append, countActive_cons,
                if_pos ⟨rfl, homodel⟩] at h1
              have hzero : countActive model.model_type
                  (updateFirst (fun m => m.id == mid)
                    (fun m => { m with status := s, updated_at := some now }) ms) = 0 := by
                rw [hupd, countActive_append, countActive_cons,
                  if_neg (by rintro ⟨_, hst⟩; exact hsne hst)]
                omega
              have hle := promote_count_le now model.model_type
                (updateFirst (fun m => m.id == mid)
                  (fun m => { m with status := s, updated_at := some now }) ms)
              rw [hzero] at hle
              omega
            · rw [promote_count_other now _ ty _ hty, hupd]
              rw [countActive_update_mid ty l1 l2 _ model
                (by rintro ⟨hh, _⟩; exact hty (by rw [← hh]))
                (by rintro ⟨hh, _⟩; exact hty (by rw [← hh]))]
              have := hInv ty
              rw [hsplit] at this
              exact this
          · rw [if_neg hold] at h
            subst h
            have homodel : model.status ≠ "active" := by
              intro hcon
              apply hold
              rw [Bool.and_eq_true]
              refine ⟨by simp [hcon], ?_⟩
              simp [bne, hsne]
            intro ty
            rw [hupd]
            rw [countActive_update_mid ty l1 l2 _ model
              (by rintro ⟨_, hst⟩; exact hsne hst)
              (by rintro ⟨_, hst⟩; exact homodel hst)]
            have := hInv ty
            rw [hsplit] at this
            exact this
  · intro keep ty
    exact le_trans (countActive_le_of_sublist ty (cleanup_sublist keep ms)) (hInv ty)

/-- Witness for C2: adding an active entry next to an already-active
sibling keeps the invariant (the type even ends with zero actives, thanks
to the self-archival of C1). -/
theorem C2_add_setStatus_cleanup_preserve_invariant_witness :
    ActiveInvariant (deactivateOtherModels "T" ([bActW] ++ [mkEntry "tw" "fw" dActW])) := by
  have hInv : ActiveInvariant [bActW] := fun ty =>
    countActive_le_length ty [bActW]
  exact (C2_add_setStatus_cleanup_preserve_invariant [bActW] hInv).1 "tw" "fw" dActW _ rfl

/-- `activesOf` over a cons cell keeps the head exactly when it is an
active entry of the type. -/
theorem activesOf_cons (ty : String) (e : Entry) (l : List Entry) :
    activesOf ty (e :: l) =
      if e.model_type = ty ∧ e.status = "active"
      then e :: activesOf ty l else activesOf ty l := by
  simp only [activesOf, List.filter_cons]
  by_cases h : e.model_type = ty ∧ e.status = "active"
  · rw [if_pos h,
      show (e.model_type == ty && e.status == "active") = true by simp [h.1, h.2]]
    rfl
  · rw [if_neg h,
      show (e.model_type == ty && e.status == "active") = false by
        rcases not_and_or.mp h with hh | hh
        · rw [beq_eq_false_iff_ne.mpr hh, Bool.false_and]
        · rw [beq_eq_false_iff_ne.mpr hh, Bool.and_false]]
    rfl

/-- Python's `max` splits its input into a strictly smaller prefix, the
returned (first maximal) element, and a no-larger suffix. -/
theorem maxByAcc_split :
    ∀ (cs : List Entry) (c : Entry),
      ∃ pre post, c :: cs = pre ++ maxByAcc c cs :: post ∧
        (∀ y ∈ pre, accOf y < accOf (maxByAcc c cs)) ∧
        (∀ y ∈ post, accOf y ≤ accOf (maxByAcc c cs)) := by
  intro cs
  induction cs with
  | nil =>
    intro c
    exact ⟨[], [], rfl, fun y hy => absurd hy (List.not_mem_nil y),
      fun y hy => absurd hy (List.not_mem_nil y)⟩
  | cons x xs ih =>
    intro c
    rw [show maxByAcc c (x :: xs) =
      (if accOf c < accOf x then maxByAcc x xs else maxByAcc c xs) from rfl]
    by_cases h : accOf c < accOf x
    · rw [if_pos h]
      obtain ⟨pre, post, hsp, hpre, hpost⟩ := ih x
      cases pre with
      | nil =>
        rw [List.nil_append] at hsp
        injection hsp with h1 h2
        refine ⟨[c], post, ?_, ?_, hpost⟩
        · show c :: x :: xs = c :: maxByAcc x xs :: post
          rw [← h1, ← h2]
        · intro y hy
          rcases List.mem_singleton.mp hy with rfl
          rw [← h1]
          exact h
      | cons p ps =>
        injection hsp with h1 h2
        rw [List.append_eq] at h2
        refine ⟨c :: p :: ps, post, ?_, ?_, hpost⟩
        · show c :: x :: xs = c :: p :: (ps ++ maxByAcc x xs :: post)
          rw [← h1, ← h2]
        · intro y hy
          rcases List.mem_cons.mp hy with rfl | hy2
          · refine lt_trans h ?_
            nth_rewrite 1 [h1]
            exact hpre p (List.mem_cons_self _ _)
          · exact hpre y hy2
    · rw [if_neg h]
      have hxc : accOf x ≤ accOf c := not_lt.mp h
      obtain ⟨pre, post, hsp, hpre, hpost⟩ := ih c
      cases pre with
      | nil =>
        rw [List.nil_append] at hsp
        injection hsp with h1 h2
        refine ⟨[], x :: post, ?_, fun y hy => absurd hy (List.not_mem_nil y), ?_⟩
        · show c :: x :: xs = maxByAcc c xs :: x :: post
          rw [← h1, ← h2]
        · intro y hy
          rcases List.mem_cons.mp hy with rfl | hy2
          · rw [← h1]
            exact hxc
          · exact hpost y hy2
      | cons p ps =>
        injection hsp with h1 h2
        rw [List.append_eq] at h2
        have hcb : accOf c < accOf (maxByAcc c xs) := by
          nth_rewrite 1 [h1]
          exact hpre p (List.mem_cons_self _ _)
        refine ⟨c :: x :: ps, post, ?_, ?_, hpost⟩
        · show c :: x :: xs = c :: x :: (ps ++ maxByAcc c xs :: post)
          rw [← h2]
        · intro y hy
          rcases List.mem_cons.mp hy with rfl | hy2
          · exact hcb
          · rcases List.mem_cons.mp hy2 with rfl | hy3
            · exact lt_of_le_of_lt hxc hcb
            · exact hpre y (List.mem_cons_of_mem _ hy3)

/-- On a ledger with no active entry of the type, promotion either keeps
zero actives (no candidate) or makes exactly the first maximal-accuracy
candidate the unique active entry of the type. -/
theorem promote_spec (now ty : String) (ms : List Entry)
    (hnoact : activesOf ty ms = []) :
    ((getModelsByType ty ms).filter (fun c => c.status == "candidate") = [] →
      activesOf ty (promoteBestCandidate now ty ms) = []) ∧
    (∀ c cs, (getModelsByType ty ms).filter (fun c => c.status == "candidate") = c :: cs →
      ∃ pre post, c :: cs = pre ++ maxByAcc c cs :: post ∧
        (∀ y ∈ pre, accOf y < accOf (maxByAcc c cs)) ∧
        (∀ y ∈ post, accOf y ≤ accOf (maxByAcc c cs)) ∧
        activesOf ty (promoteBestCandidate now ty ms) =
          [{ maxByAcc c cs with status := "active", promoted_at := some now }]) := by
  constructor
  · intro hc
    rw [show promoteBestCandidate now ty ms =
      (match (getModelsByType ty ms).filter (fun c => c.status == "candidate") with
      | [] => ms
      | c :: cs => updateFirst (fun m => m == maxByAcc c cs)
          (fun m => { m with status := "active", promoted_at := some now }) ms)
      from rfl, hc]
    exact hnoact
  · intro c cs hc
    obtain ⟨pre, post, hsp, hpre, hpost⟩ := maxByAcc_split cs c
    have hbmem : maxByAcc c cs ∈ c :: cs := maxByAcc_mem cs c
    rw [← hc] at hbmem
    have hmem2 := List.mem_filter.mp hbmem
    have hmem3 := List.mem_filter.mp hmem2.1
    have hbty : (maxByAcc c cs).model_type = ty := by simpa using hmem3.2
    have hfind : ms.find? (fun m => m == maxByAcc c cs) = some (maxByAcc c cs) :=
      find?_beq_self_of_mem ms _ hmem3.1
    obtain ⟨l1, l2, hsplit, _, _, hupd⟩ := updateFirst_decomp
      (fun m => m == maxByAcc c cs)
      (fun m => { m with status := "active", promoted_at := some now }) ms _ hfind
    refine ⟨pre, post, hsp, hpre, hpost, ?_⟩
    rw [show promoteBestCandidate now ty ms =
      (match (getModelsByType ty ms).filter (fun c => c.status == "candidate") with
      | [] => ms
      | c :: cs => updateFirst (fun m => m == maxByAcc c cs)
          (fun m => { m with status := "active", promoted_at := some now }) ms)
      from rfl, hc]
    rw [show (match c :: cs with
      | [] => ms
      | c :: cs => updateFirst (fun m => m == maxByAcc c cs)
          (fun m => { m with status := "active", promoted_at := some now }) ms) =
      updateFirst (fun m => m == maxByAcc c cs)
        (fun m => { m with status := "active", promoted_at := some now }) ms from rfl,
      hupd]
    have hnil : activesOf ty l1 = [] ∧ activesOf ty l2 = [] := by
      rw [hsplit] at hnoact
      rw [activesOf_append, activesOf_cons] at hnoact
      rcases List.append_eq_nil.mp (by
        by_cases hmid : (maxByAcc c cs).model_type = ty ∧ (maxByAcc c cs).status = "active"
        · rw [if_pos hmid] at hnoact
          exact absurd hnoact (by simp)
        · rw [if_neg hmid] at hnoact
          exact hnoact) with ⟨h1, h2⟩
      exact ⟨h1, h2⟩
    rw [activesOf_append, activesOf_cons, hnil.1, hnil.2,
      if_pos ⟨hbty, rfl⟩]
    rfl

/-- C3 (amended, theorem): when `setStatus` demotes the entry that is the
unique active entry of its `model_type` to a valid non-active status, then:
with no candidate of that type (in the demoted ledger) the type ends with
zero active entries; otherwise the candidate with the highest accuracy
becomes the unique active entry — with ties broken in favour of the
earliest-listed candidate (the promoted one is preceded only by strictly
lower scores and followed only by no-larger scores), not by the most
recent `created_at` as the claim stated. -/
theorem C3_demotion_promotes_first_best_candidate
    (now mid s T : String) (ms : List Entry) (m : Entry)
    (hfind : getModelById mid ms = some m)
    (hact : m.status = "active")
    (hT : m.model_type = T)
    (hunique : activesOf T ms = [m])
    (hvalid : validStatuses.contains s = true)
    (hs : s ≠ "active") :
    ∃ ms2, updateModelStatus now mid s ms = .ok ms2 ∧
      (((getModelsByType T (updateFirst (fun x => x.id == mid)
          (fun x => { x with status := s, updated_at := some now }) ms)).filter
          (fun c => c.status == "candidate") = [] →
        activesOf T ms2 = []) ∧
      (∀ c cs, (getModelsByType T (updateFirst (fun x => x.id == mid)
          (fun x => { x with status := s, updated_at := some now }) ms)).filter
          (fun c => c.status == "candidate") = c :: cs →
        ∃ pre post, c :: cs = pre ++ maxByAcc c cs :: post ∧
          (∀ y ∈ pre, accOf y < accOf (maxByAcc c cs)) ∧
          (∀ y ∈ post, accOf y ≤ accOf (maxByAcc c cs)) ∧
          activesOf T ms2 =
            [{ maxByAcc c cs with status := "active", promoted_at := some now }])) := by
  have hbs : (s == "active") = false := beq_eq_false_iff_ne.mpr hs
  have hbold : (m.status == "active" && s != "active") = true := by
    rw [hact]
    simp [bne, hbs]
  have hform : updateModelStatus now mid s ms =
      .ok (promoteBestCandidate now m.model_type
        (updateFirst (fun x => x.id == mid)
          (fun x => { x with status := s, updated_at := some now }) ms)) := by
    unfold updateModelStatus
    rw [if_neg (by rw [hvalid]; decide), hfind]
    show Except.ok (if s == "active" then
        deactivateOtherModels m.model_type (updateFirst (fun x => x.id == mid)
          (fun x => { x with status := s, updated_at := some now }) ms)
      else if m.status == "active" && s != "active" then
        promoteBestCandidate now m.model_type (updateFirst (fun x => x.id == mid)
          (fun x => { x with status := s, updated_at := some now }) ms)
      else updateFirst (fun x => x.id == mid)
        (fun x => { x with status := s, updated_at := some now }) ms) = _
    rw [if_neg (by rw [hbs]; decide), if_pos hbold]
  rw [hT] at hform
  obtain ⟨l1, l2, hsplit, hpre, hpx, hupd⟩ := updateFirst_decomp
    (fun x => x.id == mid)
    (fun x => { x with status := s, updated_at := some now }) ms m hfind
  have hnoact : activesOf T (updateFirst (fun x => x.id == mid)
      (fun x => { x with status := s, updated_at := some now }) ms) = [] := by
    rw [hsplit] at hunique
    rw [activesOf_append, activesOf_cons, if_pos ⟨hT, hact⟩] at hunique
    have hlen := congrArg List.length hunique
    rw [List.length_append, List.length_cons, List.length_singleton] at hlen
    have hl1 : activesOf T l1 = [] :=
      List.length_eq_zero.mp (by omega)
    have hl2 : activesOf T l2 = [] :=
      List.length_eq_zero.mp (by omega)
    rw [hupd, activesOf_append, activesOf_cons,
      if_neg (fun hcon => hs hcon.2), hl1, hl2]
    rfl
  have hps := promote_spec now T _ hnoact
  exact ⟨_, hform, hps.1, hps.2⟩

/-- Witness for C3: demoting the sole active entry of type `T` with two
equally accurate candidates promotes the earlier one, which becomes the
unique active entry. -/
theorem C3_demotion_promotes_first_best_candidate_witness :
    ∃ ms2, updateModelStatus "t3" "x" "archived" [act0W, cOldW, cNewW] = .ok ms2 ∧
      (((getModelsByType "T" (updateFirst (fun x => x.id == "x")
          (fun x => { x with status := "archived", updated_at := some "t3" })
          [act0W, cOldW, cNewW])).filter
          (fun c => c.status == "candidate") = [] →
        activesOf "T" ms2 = []) ∧
      (∀ c cs, (getModelsByType "T" (updateFirst (fun x => x.id == "x")
          (fun x => { x with status := "archived", updated_at := some "t3" })
          [act0W, cOldW, cNewW])).filter
          (fun c => c.status == "candidate") = c :: cs →
        ∃ pre post, c :: cs = pre ++ maxByAcc c cs :: post ∧
          (∀ y ∈ pre, accOf y < accOf (maxByAcc c cs)) ∧
          (∀ y ∈ post, accOf y ≤ accOf (maxByAcc c cs)) ∧
          activesOf "T" ms2 =
            [{ maxByAcc c cs with status := "active", promoted_at := some "t3" }])) :=
  C3_demotion_promotes_first_best_candidate "t3" "x" "archived" "T"
    [act0W, cOldW, cNewW] act0W rfl rfl rfl rfl (by decide) (by decide)

/-- Python's `max` by `created_at` returns a member of the list. -/
theorem maxByCreated_mem : ∀ (as : List Entry) (a : Entry),
    maxByCreated a as ∈ a :: as := by
  intro as
  induction as with
  | nil => intro a; exact List.mem_cons_self _ _
  | cons x xs ih =>
    intro a
    show (if a.created_at < x.created_at then maxByCreated x xs else maxByCreated a xs) ∈ _
    by_cases h : a.created_at < x.created_at
    · rw [if_pos h]
      rcases List.mem_cons.mp (ih x) with he | hm
      · rw [he]
        exact List.mem_cons_of_mem _ (List.mem_cons_self _ _)
      · exact List.mem_cons_of_mem _ (List.mem_cons_of_mem _ hm)
    · rw [if_neg h]
      rcases List.mem_cons.mp (ih a) with he | hm
      · rw [he]
        exact List.mem_cons_self _ _
      · exact List.mem_cons_of_mem _ (List.mem_cons_of_mem _ hm)

/-- No list member has a later `created_at` than Python's `max`. -/
theorem maxByCreated_le : ∀ (as : List Entry) (a : Entry), ∀ b ∈ a :: as,
    b.created_at ≤ (maxByCreated a as).created_at := by
  intro as
  induction as with
  | nil =>
    intro a b hb
    rcases List.mem_singleton.mp hb with rfl
    exact le_refl _
  | cons x xs ih =>
    intro a b hb
    show b.created_at ≤
      (if a.created_at < x.created_at then maxByCreated x xs else maxByCreated a xs).created_at
    by_cases h : a.created_at < x.created_at
    · rw [if_pos h]
      rcases List.mem_cons.mp hb with rfl | hb2
      · exact le_trans (le_of_lt h) (ih x x (List.mem_cons_self _ _))
      · exact ih x b hb2
    · rw [if_neg h]
      rcases List.mem_cons.mp hb with rfl | hb2
      · exact ih b b (List.mem_cons_self _ _)
      · rcases List.mem_cons.mp hb2 with rfl | hb3
        · exact le_trans (not_lt.mp h) (ih a a (List.mem_cons_self _ _))
        · exact ih a b (List.mem_cons_of_mem _ hb3)

/-- The descending insertion step permutes a cons. -/
theorem insertDescAcc_perm (e : Entry) :
    ∀ l : List Entry, (insertDescAcc e l).Perm (e :: l) := by
  intro l
  induction l with
  | nil => exact List.Perm.refl _
  | cons x xs ih =>
    show (if accOf x ≤ accOf e then e :: x :: xs else x :: insertDescAcc e xs).Perm _
    by_cases h : accOf x ≤ accOf e
    · rw [if_pos h]
    · rw [if_neg h]
      exact (List.Perm.cons x ih).trans (List.Perm.swap e x xs)

/-- The challenger sort is a permutation of its input. -/
theorem sortByAccDesc_perm (l : List Entry) : (sortByAccDesc l).Perm l := by
  induction l with
  | nil => exact List.Perm.refl _
  | cons x xs ih =>
    show (insertDescAcc x (sortByAccDesc xs)).Perm (x :: xs)
    exact (insertDescAcc_perm x (sortByAccDesc xs)).trans (List.Perm.cons x ih)

/-- Inserting into a descending-sorted list keeps it descending. -/
theorem insertDescAcc_pairwise (e : Entry) :
    ∀ l : List Entry, l.Pairwise (fun a b => accOf b ≤ accOf a) →
      (insertDescAcc e l).Pairwise (fun a b => accOf b ≤ accOf a) := by
  intro l
  induction l with
  | nil => intro _; simp [insertDescAcc]
  | cons x xs ih =>
    intro h
    rw [List.pairwise_cons] at h
    show (if accOf x ≤ accOf e then e :: x :: xs else x :: insertDescAcc e xs).Pairwise _
    by_cases hc : accOf x ≤ accOf e
    · rw [if_pos hc]
      rw [List.pairwise_cons]
      refine ⟨?_, List.pairwise_cons.mpr h⟩
      intro b hb
      rcases List.mem_cons.mp hb with rfl | hb2
      · exact hc
      · exact le_trans (h.1 b hb2) hc
    · rw [if_neg hc]
      rw [List.pairwise_cons]
      refine ⟨?_, ih h.2⟩
      intro b hb
      rcases List.mem_cons.mp ((insertDescAcc_perm e xs).mem_iff.mp hb) with rfl | hb2
      · exact le_of_lt (not_le.mp hc)
      · exact h.1 b hb2

/-- The challenger sort is descending by accuracy. -/
theorem sortByAccDesc_pairwise (l : List Entry) :
    (sortByAccDesc l).Pairwise (fun a b => accOf b ≤ accOf a) := by
  induction l with
  | nil => exact List.Pairwise.nil
  | cons x xs ih =>
    exact insertDescAcc_pairwise x (sortByAccDesc xs) ih

/-- The loader's output, with the challenger weight written uniformly
(the `if` guard only matters when the challenger list is empty, where the
map produces nothing anyway). -/
theorem selectEnsemble_eq (mt : Option String) (ms : List Entry) :
    selectEnsemble mt ms =
      (match activesSel mt ms with
        | [] => ([] : List (Entry × ℚ))
        | a :: as => [(maxByCreated a as, (7 : ℚ) / 10)]) ++
      (challengersSel mt ms).map
        (fun c => (c, (3 : ℚ) / 10 / (challengersSel mt ms).length)) := by
  simp only [selectEnsemble]
  cases hch : challengersSel mt ms with
  | nil => rfl
  | cons d ds =>
    rw [show ((d :: ds).isEmpty : Bool) = false from rfl]
    rfl

/-- C6 (confirmed): champion and challenger selection of `_load_models`.
With no active entry, no champion is selected and no 0.7 weight allocated;
with actives, the champion heads the selection with weight 0.7, is an
active entry, and none of them has a later `created_at`.  The challengers
are at most the top 2 candidates, sorted descending by accuracy, each
dominating every unselected candidate, and each carries weight
`0.3 / len(challengers)`; and on the spec's scenario (one active entry and
candidates of accuracy 0.89 and 0.82) the weights are 0.7, 0.15, 0.15 with
the 0.89 candidate first. -/
theorem C6_loader_selection (mt : Option String) (ms : List Entry) :
    (activesSel mt ms = [] →
      selectEnsemble mt ms = (challengersSel mt ms).map
        (fun c => (c, (3 : ℚ) / 10 / (challengersSel mt ms).length))) ∧
    (∀ a as, activesSel mt ms = a :: as →
      ∃ ch, ch ∈ activesSel mt ms ∧
        (∀ b ∈ activesSel mt ms, b.created_at ≤ ch.created_at) ∧
        selectEnsemble mt ms = (ch, (7 : ℚ) / 10) :: (challengersSel mt ms).map
          (fun c => (c, (3 : ℚ) / 10 / (challengersSel mt ms).length))) ∧
    ((challengersSel mt ms).length ≤ 2 ∧
      (∀ c ∈ challengersSel mt ms, c ∈ candidatesSel mt ms) ∧
      (challengersSel mt ms).Pairwise (fun a b => accOf b ≤ accOf a) ∧
      (∀ c ∈ challengersSel mt ms, ∀ x ∈ candidatesSel mt ms,
        x ∉ challengersSel mt ms → accOf x ≤ accOf c)) ∧
    selectEnsemble (some "full_time") [sActW, s82W, s89W] =
      [(sActW, 7 / 10), (s89W, 3 / 20), (s82W, 3 / 20)] := by
  refine ⟨?_, ?_, ⟨?_, ?_, ?_, ?_⟩, ?_⟩
  · intro h
    rw [selectEnsemble_eq, h, List.nil_append]
  · intro a as h
    refine ⟨maxByCreated a as, ?_, ?_, ?_⟩
    · rw [h]
      exact maxByCreated_mem as a
    · rw [h]
      exact maxByCreated_le as a
    · rw [selectEnsemble_eq, h]
      rfl
  · show ((sortByAccDesc (candidatesSel mt ms)).take 2).length ≤ 2
    rw [List.length_take]
    exact min_le_left _ _
  · intro c hc
    exact (sortByAccDesc_perm (candidatesSel mt ms)).mem_iff.mp
      (List.mem_of_mem_take hc)
  · exact (sortByAccDesc_pairwise (candidatesSel mt ms)).sublist
      (List.take_sublist 2 _)
  · intro c hc x hx hnx
    have hxs : x ∈ sortByAccDesc (candidatesSel mt ms) :=
      (sortByAccDesc_perm (candidatesSel mt ms)).mem_iff.mpr hx
    have hxdrop : x ∈ (sortByAccDesc (candidatesSel mt ms)).drop 2 := by
      have hxsplit : x ∈ (sortByAccDesc (candidatesSel mt ms)).take 2 ++
          (sortByAccDesc (candidatesSel mt ms)).drop 2 := by
        rw [List.take_append_drop]
        exact hxs
      rcases List.mem_append.mp hxsplit with htk | hdr
      · exact absurd htk hnx
      · exact hdr
    have hpw := sortByAccDesc_pairwise (candidatesSel mt ms)
    rw [← List.take_append_drop 2 (sortByAccDesc (candidatesSel mt ms)),
      List.pairwise_append] at hpw
    exact hpw.2.2 c hc x hxdrop
  · have hacc : ¬(accOf s89W ≤ accOf s82W) := by
      norm_num [accOf, metricsGet, s89W, s82W, baseE, List.find?]
    rw [selectEnsemble_eq]
    rw [show activesSel (some "full_time") [sActW, s82W, s89W] = [sActW] by
      simp [activesSel, getModelsByStatus, sActW, s82W, s89W, baseE, List.filter]]
    rw [show challengersSel (some "full_time") [sActW, s82W, s89W] = [s89W, s82W] by
      show (sortByAccDesc (candidatesSel (some "full_time") [sActW, s82W, s89W])).take 2 = _
      rw [show candidatesSel (some "full_time") [sActW, s82W, s89W] = [s82W, s89W] by
        simp [candidatesSel, getModelsByStatus, sActW, s82W, s89W, baseE, List.filter]]
      show ((insertDescAcc s82W (insertDescAcc s89W [])).take 2) = _
      rw [show insertDescAcc s89W [] = [s89W] from rfl]
      rw [show insertDescAcc s82W [s89W] =
        if accOf s89W ≤ accOf s82W then s82W :: [s89W] else s89W :: insertDescAcc s82W []
        from rfl, if_neg hacc]
      rfl]
    show [(maxByCreated sActW [], (7 : ℚ) / 10)] ++
      [(s89W, (3 : ℚ) / 10 / 2), (s82W, (3 : ℚ) / 10 / 2)] = _
    rw [show maxByCreated sActW [] = sActW from rfl]
    norm_num

/-- Witness for C6 on the scenario registry: the champion clause applies
with the sole active entry. -/
theorem C6_loader_selection_witness :
    ∃ ch, ch ∈ activesSel (some "full_time") [sActW, s82W, s89W] ∧
      (∀ b ∈ activesSel (some "full_time") [sActW, s82W, s89W],
        b.created_at ≤ ch.created_at) ∧
      selectEnsemble (some "full_time") [sActW, s82W, s89W] =
        (ch, (7 : ℚ) / 10) ::
          (challengersSel (some "full_time") [sActW, s82W, s89W]).map
            (fun c => (c, (3 : ℚ) / 10 /
              (challengersSel (some "full_time") [sActW, s82W, s89W]).length)) :=
  (C6_loader_selection (some "full_time") [sActW, s82W, s89W]).2.1 sActW [] rfl

end Trebujton
